import Mathlib

/-!
# Verification of the DMF electrode-board construction script

Shallow embedding of `src/scripted_layout_v7.py` and of the `dmfwizard`
construction engine it drives.  The script itself (constants, the ASCII
floor plan, the JSON encoder, the pin-table build and layout export) is
embedded directly from the source.  The engine functions it calls
(`fill_ascii`, `add_peripheral`, `copy`, `crenellate_grid`,
`crenellate_electrodes`, `reduce_board_to_electrodes`) are not part of the
repository's sources; those are modelled from the specification, which
describes their data model and algorithms in detail.

Coordinates are rationals; a rotation is represented by the pair
(cos θ, sin θ) so that the affine transforms of the engine stay decidable.
-/

namespace DMF

/-! ## Geometry primitives -/

/-- A 2D point with rational coordinates. -/
abbrev Pt := ℚ × ℚ

/-- A polygon: ordered closed sequence of points in a local frame. -/
abbrev Poly := List Pt

/-- Pointwise addition of 2D points. -/
def ptAdd (a b : Pt) : Pt := (a.1 + b.1, a.2 + b.2)

/-- Apply a rotation, given by the pair (cos θ, sin θ), to a point. -/
def rotApply (rot : Pt) (p : Pt) : Pt :=
  (rot.1 * p.1 - rot.2 * p.2, rot.2 * p.1 + rot.1 * p.2)

/-- The identity rotation (angle 0): cos = 1, sin = 0. -/
def rot0 : Pt := (1, 0)

/-- Modelled from the spec: `transform(polygon, origin, rotation)` rotates
every point about the local origin and then translates by `origin`. -/
def transform (poly : Poly) (origin : Pt) (rot : Pt) : Poly :=
  poly.map (fun p => ptAdd (rotApply rot p) origin)

/-! ## The ASCII floor plan from the script (src lines 43-62) -/

/-- The `grid_design` string literal of `scripted_layout_v7.py`. -/
def gridDesign : String :=
  " X  X  X  X  X  X  X\n" ++
  " X  X  X  X  X  X  X\n" ++
  " XXXXXXXXXXXXXXXXXXX\n" ++
  " X  X  X  X  X  X  X\n" ++
  " X  X  X  X  X  X  X\n" ++
  "          X\n" ++
  "          X\n" ++
  " X  X  X  X  X  X  X\n" ++
  " X  X  X  X  X  X  X\n" ++
  "XXXXXXXXXXXXXXXXXXXXX\n" ++
  "X    X    X    X    X\n" ++
  "X    X    X    X    X\n" ++
  "X                   X\n" ++
  "X                   X\n" ++
  "X                   X\n" ++
  "X                   X\n" ++
  "X                   X\n" ++
  "X                   X\n"

/-! ## ASCII floor-plan parsing (`Constructor.fill_ascii`) -/

/-- Enumerate a list with indices starting at `n`. -/
def enumFromN (n : ℕ) : List α → List (ℕ × α)
  | [] => []
  | a :: l => (n, a) :: enumFromN (n + 1) l

/-- Split a character sequence at newline characters; models Python's
`str.split('\n')` (an empty text gives one empty line, a trailing newline
gives a final empty line). -/
def splitLines : List Char → List (List Char)
  | [] => [[]]
  | c :: rest =>
    let r := splitLines rest
    if c = '\n' then [] :: r
    else (c :: r.headD []) :: r.tail

/-- The lines of a text. -/
def lines (text : String) : List (List Char) := splitLines text.data

/-- The character of `text` at text row `r`, column `c` (space when out of
range, matching a monospace grid padded with blanks). -/
def charAt (text : String) (r c : ℕ) : Char :=
  ((lines text).getD r []).getD c ' '

/-- Modelled from the spec and the script's floor plan: the lattice cells
marked by the fill character, scanned row by row (text row `r` is grid
row `r`) and left to right, with ONE text character per grid column.
Yields `(col, row)` pairs in scan order. -/
def scanCells (fill : Char) (text : String) : List (ℕ × ℕ) :=
  (enumFromN 0 (lines text)).flatMap fun rl =>
    (enumFromN 0 rl.2).filterMap fun cc =>
      if cc.2 = fill then some (cc.1, rl.1) else none

/-- Modelled from the spec's words alone ("one character-column-pair per
grid column"): a cell `(c, r)` is occupied when the two-character column
`2c, 2c+1` of text row `r` contains the fill character.  Kept for
comparison against `scanCells`, which follows the script's actual floor
plan. -/
def cellFilledPair (fill : Char) (text : String) (c r : ℕ) : Bool :=
  charAt text r (2 * c) = fill || charAt text r (2 * c + 1) = fill

/-- Single-character-column occupancy test corresponding to `scanCells`. -/
def cellFilled (fill : Char) (text : String) (c r : ℕ) : Bool :=
  charAt text r c = fill

theorem enumFromN_mem {l : List α} {n i : ℕ} {a : α} :
    (i, a) ∈ enumFromN n l ↔ n ≤ i ∧ l.get? (i - n) = some a := by
  induction l generalizing n with
  | nil => simp [enumFromN]
  | cons b t ih =>
    simp only [enumFromN, List.mem_cons, ih, Prod.mk.injEq]
    constructor
    · rintro (⟨rfl, rfl⟩ | ⟨h1, h2⟩)
      · simp
      · refine ⟨by omega, ?_⟩
        have : i - n = (i - (n + 1)) + 1 := by omega
        rw [this]
        simpa using h2
    · rintro ⟨h1, h2⟩
      rcases Nat.eq_or_lt_of_le h1 with rfl | hlt
      · left
        simp at h2
        exact ⟨rfl, h2.symm⟩
      · right
        refine ⟨by omega, ?_⟩
        have : i - n = (i - (n + 1)) + 1 := by omega
        rw [this] at h2
        simpa using h2

theorem scanCells_mem {fill : Char} {text : String} {c r : ℕ} :
    (c, r) ∈ scanCells fill text ↔
      ∃ line, (lines text).get? r = some line ∧
        line.get? c = some fill := by
  simp only [scanCells, List.mem_flatMap, List.mem_filterMap]
  constructor
  · rintro ⟨⟨i, line⟩, hline, ⟨j, ch⟩, hch, hif⟩
    by_cases h : ch = fill
    · subst h
      simp only [if_pos rfl, Option.some.injEq, Prod.mk.injEq] at hif
      obtain ⟨rfl, rfl⟩ := hif
      have h1 := enumFromN_mem.mp hline
      have h2 := enumFromN_mem.mp hch
      simp only [Nat.sub_zero] at h1 h2
      exact ⟨line, h1.2, h2.2⟩
    · simp [if_neg h] at hif
  · rintro ⟨line, hline, hch⟩
    refine ⟨(r, line), enumFromN_mem.mpr ⟨Nat.zero_le _, by simpa using hline⟩,
      (c, fill), enumFromN_mem.mpr ⟨Nat.zero_le _, by simpa using hch⟩, by simp⟩

/-! ## Board model with an explicit mutable polygon store

Python objects are mutable and aliased; to state frame properties
(deep copy, in-place crenellation) the boundary polygons live in an
explicit store indexed by natural-number references, and every electrode
holds a reference into that store.  `next` is the allocation bound:
well-formed boards only hold references below it. -/

structure MElectrode where
  refdes : ℕ
  ref : ℕ
  origin : Pt
  deriving DecidableEq

structure MGrid where
  origin : Pt
  size : ℕ × ℕ
  pitch : ℚ
  electrodes : List ((ℕ × ℕ) × MElectrode)
  deriving DecidableEq

structure MPeriph where
  pclass : String
  ptype : String
  pid : ℕ
  origin : Pt
  rot : Pt
  electrodes : List (String × MElectrode)
  deriving DecidableEq

structure MBoard where
  grids : List MGrid
  peripherals : List MPeriph
  deriving DecidableEq

structure World where
  store : ℕ → Poly
  next : ℕ
  nextRefdes : ℕ
  nextPid : ℕ

/-- Write polygon `p` at reference `r` of a store. -/
def wwrite (s : ℕ → Poly) (r : ℕ) (p : Poly) : ℕ → Poly :=
  fun x => if x = r then p else s x

/-- The electrode references held by a grid. -/
def MGrid.refs (g : MGrid) : List ℕ := g.electrodes.map fun ce => ce.2.ref

/-- The electrode references held by a peripheral. -/
def MPeriph.refs (p : MPeriph) : List ℕ := p.electrodes.map fun ne => ne.2.ref

/-- All electrode references held by a board. -/
def MBoard.refs (b : MBoard) : List ℕ :=
  b.grids.flatMap MGrid.refs ++ b.peripherals.flatMap MPeriph.refs

/-! ## `Constructor.fill_ascii` on the board model -/

/-- The local polygon of one grid-cell electrode: a square of side `pitch`
(spec: "each occupied cell becomes a unit square electrode sized to
`pitch`"). -/
def unitSquare (pitch : ℚ) : Poly :=
  [(0, 0), (pitch, 0), (pitch, pitch), (0, pitch)]

/-- Grid-local origin of the cell `(col, row)`: `(col·pitch, row·pitch)`. -/
def cellOrigin (pitch : ℚ) (cell : ℕ × ℕ) : Pt :=
  ((cell.1 : ℚ) * pitch, (cell.2 : ℚ) * pitch)

/-- Allocate one electrode per listed cell, in list order: each gets the
next sequential reference designator and a fresh store reference holding
the square polygon. -/
def fillCells (w : World) (g : MGrid) : List (ℕ × ℕ) → World × MGrid
  | [] => (w, g)
  | cell :: rest =>
    fillCells
      ⟨wwrite w.store w.next (unitSquare g.pitch), w.next + 1,
        w.nextRefdes + 1, w.nextPid⟩
      { g with electrodes :=
          g.electrodes ++ [(cell, ⟨w.nextRefdes, w.next, cellOrigin g.pitch cell⟩)] }
      rest

/-- Modelled from the spec: `Constructor.fill_ascii(grid, text)` parses the
monospace floor plan (fill character `'X'`, one character per grid column,
one line per grid row, scanned row-major) and creates one square electrode
per occupied cell with sequential reference designators. -/
def fillAscii (w : World) (g : MGrid) (text : String) : World × MGrid :=
  fillCells w g (scanCells 'X' text)

theorem fillCells_keys (cs : List (ℕ × ℕ)) (w : World) (g : MGrid) :
    ((fillCells w g cs).2.electrodes.map Prod.fst) =
      g.electrodes.map Prod.fst ++ cs := by
  induction cs generalizing w g with
  | nil => simp [fillCells]
  | cons c rest ih => simp [fillCells, ih]

theorem getD_space_eq_fill (o : Option Char) : (o.getD ' ' = 'X') ↔ o = some 'X' := by
  cases o <;> simp

theorem cellFilled_iff {text : String} {c r : ℕ} :
    cellFilled 'X' text c r = true ↔
      ∃ line, (lines text).get? r = some line ∧ line.get? c = some 'X' := by
  unfold cellFilled charAt
  simp only [List.getD_eq_getElem?_getD, ← List.get?_eq_getElem?, decide_eq_true_eq,
    getD_space_eq_fill]
  rcases h : (lines text).get? r with _ | line <;> simp [h]

theorem scanCells_iff_filled {text : String} {c r : ℕ} :
    (c, r) ∈ scanCells 'X' text ↔ cellFilled 'X' text c r = true :=
  scanCells_mem.trans cellFilled_iff.symm

/-- **C4 (counterexample).** The spec reads the floor plan with one
character-column-PAIR per grid column.  The script's own floor plan
(`grid_design`, 21 columns wide for `GRID_WIDTH = 21`) and its subsequent
dereference of grid cell `(15, 11)` (line 94, the reservoir interface
crenellation) require cell `(15, 11)` to be occupied.  Under the
one-character-per-column parse it is; under the spec's pair-per-column
reading that cell's character pair (text columns 30 and 31, beyond the
21-character line) is blank, so the cell would be empty and the script
would fail. -/
theorem fill_ascii_pair_column_refuted :
    (15, 11) ∈ scanCells 'X' gridDesign ∧
      cellFilledPair 'X' gridDesign 15 11 = false ∧
      cellFilled 'X' gridDesign 15 11 = true := by
  decide

/-- **C4 (amended).** `fill_ascii` parses the floor plan with ONE text
character per grid column: line `r` of the text is grid row `r`, character
`c` of that line is grid column `c`, the fill character `'X'` marks an
occupied cell and anything else (in the plan: space) marks an empty cell.
The parse appends one electrode per occupied cell, in row-major scan
order. -/
theorem fill_ascii_one_char_per_column (w : World) (g : MGrid) (text : String) :
    ((fillAscii w g text).2.electrodes.map Prod.fst =
      g.electrodes.map Prod.fst ++ scanCells 'X' text) ∧
    (∀ c r : ℕ, (c, r) ∈ scanCells 'X' text ↔ cellFilled 'X' text c r = true) :=
  ⟨fillCells_keys _ w g, fun _ _ => scanCells_iff_filled⟩

/-- The empty world: empty store, no allocations yet. -/
def emptyWorld : World := ⟨fun _ => [], 0, 0, 0⟩

/-- The 2×2 grid of pitch `p` of testable property C5. -/
def c5Grid (p : ℚ) : MGrid := ⟨(0, 0), (2, 2), p, []⟩

/-- Result of parsing the floor-plan string `"X \nXX\n"` into that grid. -/
def c5Result (p : ℚ) : MGrid := (fillAscii emptyWorld (c5Grid p) "X \nXX\n").2

/-- **C5.** Parsing the floor-plan string `"X \nXX\n"` into a 2×2 grid of
pitch `p` creates exactly 3 electrodes, exactly at the lattice positions
of the fill characters — `(0,0)`, `(0,1)`, `(1,1)` — with sequential
reference designators, and no electrode at any position whose character
is a space. -/
theorem fill_ascii_small_plan_three_electrodes (p : ℚ) :
    (c5Result p).electrodes.map Prod.fst = [(0, 0), (0, 1), (1, 1)] ∧
    (c5Result p).electrodes.length = 3 ∧
    (∀ c r : ℕ, (c, r) ∈ (c5Result p).electrodes.map Prod.fst ↔
      cellFilled 'X' "X \nXX\n" c r = true) ∧
    (c5Result p).electrodes.map (fun ce => ce.2.refdes) = [0, 1, 2] := by
  refine ⟨rfl, rfl, ?_, rfl⟩
  intro c r
  rw [show (c5Result p).electrodes.map Prod.fst = scanCells 'X' "X \nXX\n" from rfl]
  exact scanCells_iff_filled

/-! ## Pin extraction from net names (src lines 187-194)

Embedding of `re.match('/P(\d+)', net_name)` followed by
`int(match.group(1))`.  `re.match` is anchored at the start of the string;
`\d+` greedily captures the maximal run of decimal digits (modelled as the
ASCII digits 0-9); whatever follows the digit run is not constrained. -/

/-- Numeric value of a run of decimal digit characters, most significant
first: the model of Python's `int` applied to the captured group. -/
def digitsVal (ds : List Char) : ℕ :=
  ds.foldl (fun a c => 10 * a + (c.toNat - 48)) 0

/-- The pin-number extraction of the pin-table build loop: `some pin` when
the net name matches `/P(\d+)` at its start, `none` otherwise. -/
def netPin (s : String) : Option ℕ :=
  match s.data with
  | c1 :: c2 :: rest =>
    if c1 = '/' ∧ c2 = 'P' then
      let ds := rest.takeWhile Char.isDigit
      if ds.isEmpty then none else some (digitsVal ds)
    else none
  | _ => none

theorem takeWhile_all_append (p : Char → Bool) (ds rest : List Char)
    (h : ∀ c ∈ ds, p c = true) (hrest : ∀ c ∈ rest.head?, p c = false) :
    (ds ++ rest).takeWhile p = ds := by
  induction ds with
  | nil =>
    cases rest with
    | nil => rfl
    | cons a t =>
      have := hrest a rfl
      simp [List.takeWhile, this]
  | cons d t ih =>
    have hd := h d (by simp)
    simp only [List.cons_append, List.takeWhile, hd]
    exact congrArg (d :: ·) (ih (fun c hc => h c (by simp [hc])))

/-- **C10.** Pin extraction succeeds exactly on net names that begin with
`/P` immediately followed by at least one decimal digit; on success the
pin is the value of the maximal leading digit run and trailing characters
are ignored (`"/P12X"` yields pin 12). -/
theorem netPin_matches_leading_digit_run :
    (∀ s : String, (netPin s).isSome = true ↔
      ∃ ds rest, s.data = '/' :: 'P' :: (ds ++ rest) ∧ ds ≠ [] ∧
        ∀ c ∈ ds, c.isDigit = true) ∧
    (∀ ds rest : List Char, (∀ c ∈ ds, c.isDigit = true) → ds ≠ [] →
      (∀ c ∈ rest.head?, c.isDigit = false) →
      netPin ⟨'/' :: 'P' :: (ds ++ rest)⟩ = some (digitsVal ds)) ∧
    netPin "/P12X" = some 12 := by
  refine ⟨?_, ?_, by decide⟩
  · intro s
    rcases s with ⟨data⟩
    constructor
    · intro hs
      match data with
      | [] => simp [netPin] at hs
      | [c1] => simp [netPin] at hs
      | c1 :: c2 :: rest =>
        simp only [netPin] at hs
        split at hs
        · next hc =>
          obtain ⟨rfl, rfl⟩ := hc
          split at hs
          · simp at hs
          · next hne =>
            refine ⟨rest.takeWhile Char.isDigit, rest.dropWhile Char.isDigit,
              by rw [List.takeWhile_append_dropWhile], ?_, ?_⟩
            · intro hemp
              rw [hemp] at hne
              simp at hne
            · intro c hc
              exact List.mem_takeWhile_imp hc
        · simp at hs
    · rintro ⟨ds, rest, hdata, hne, hd⟩
      replace hdata : data = '/' :: 'P' :: (ds ++ rest) := hdata
      subst hdata
      cases ds with
      | nil => exact absurd rfl hne
      | cons d t =>
        have hdd := hd d (by simp)
        simp [netPin, List.takeWhile, hdd]
  · intro ds rest hall hne hrest
    show netPin ⟨'/' :: 'P' :: (ds ++ rest)⟩ = some (digitsVal ds)
    simp only [netPin]
    split
    · rw [takeWhile_all_append Char.isDigit ds rest hall hrest]
      exact if_neg (fun hemp => hne (by simpa using hemp))
    · next hcon => exact absurd (by simp) hcon

/-- Witness for C10: the maximal-run conjunct applied at the concrete net
name `"/P12X"`. -/
theorem netPin_matches_leading_digit_run_witness :
    netPin ⟨'/' :: 'P' :: (['1', '2'] ++ ['X'])⟩ = some (digitsVal ['1', '2']) :=
  netPin_matches_leading_digit_run.2.1 ['1', '2'] ['X']
    (by decide) (by decide) (by decide)

/-! ## Pin-table build and layout export (src lines 187-206)

The build loop iterates the net table in order; a net name that fails the
`/P(\d+)` match is reported (printed) and its electrode omitted from the
pin table, and the loop continues.  The later export
(`create_grid_dict` / `create_periph_dict`) reads the pin table with a
plain `pin_table[...]` access, which raises `KeyError` on a missing key;
a raised lookup is modelled as `none` propagating through the export. -/

/-- The pin-table build loop: every entry is processed; mismatching net
names are reported (second component) and omitted, matches are kept in
input order. -/
def buildPinTable : List (String × String) → List (String × ℕ) × List String
  | [] => ([], [])
  | (refdes, net) :: rest =>
    let r := buildPinTable rest
    match netPin net with
    | some pin => ((refdes, pin) :: r.1, r.2)
    | none => (r.1, net :: r.2)

/-- Python dict lookup `pin_table[key]`: `none` models a `KeyError`. -/
def pinLookup (tbl : List (String × ℕ)) (key : String) : Option ℕ :=
  (tbl.find? (fun e => e.1 = key)).map Prod.snd

/-- The lookup key the script builds: `f'E{electrode.refdes}'`. -/
def refdesKey (n : ℕ) : String := "E" ++ toString n

/-- `ret['pins'][pos[1]][pos[0]] = pin` on a row-major matrix. -/
def setMat (m : List (List (Option ℕ))) (r c : ℕ) (v : ℕ) :
    List (List (Option ℕ)) :=
  m.set r ((m.getD r []).set c (some v))

/-- The `for pos, electrode in grid.electrodes.items()` loop of
`create_grid_dict`: aborts (`none`) at the first electrode missing from
the pin table, exactly as the unchecked dict access does. -/
def fillPins (tbl : List (String × ℕ)) (m : List (List (Option ℕ))) :
    List ((ℕ × ℕ) × MElectrode) → Option (List (List (Option ℕ)))
  | [] => some m
  | ce :: rest =>
    match pinLookup tbl (refdesKey ce.2.refdes) with
    | none => none
    | some pin => fillPins tbl (setMat m ce.1.2 ce.1.1 pin) rest

/-- `create_grid_dict`: the `pins` matrix, `height` rows of `width`
`None`-initialised cells, filled from the grid's electrodes. -/
def createGridPins (tbl : List (String × ℕ)) (g : MGrid) :
    Option (List (List (Option ℕ))) :=
  fillPins tbl (List.replicate g.size.2 (List.replicate g.size.1 none)) g.electrodes

/-- Sequential Option-traversal, modelling a Python loop that raises at
the first failing step. -/
def optMap (f : α → Option β) : List α → Option (List β)
  | [] => some []
  | a :: l => (f a).bind fun b => (optMap f l).map fun bs => b :: bs

/-- The electrode list of `create_periph_dict`: one pin per peripheral
electrode, unchecked lookup again. -/
def createPeriphPins (tbl : List (String × ℕ)) (p : MPeriph) : Option (List ℕ) :=
  optMap (fun ne => pinLookup tbl (refdesKey ne.2.refdes)) p.electrodes

/-- The layout export of src lines 226-233: grid dicts for every grid,
then peripheral dicts for every peripheral. -/
def exportLayout (tbl : List (String × ℕ)) (b : MBoard) :
    Option (List (List (List (Option ℕ))) × List (List ℕ)) :=
  (optMap (createGridPins tbl) b.grids).bind fun gs =>
    (optMap (createPeriphPins tbl) b.peripherals).map fun ps => (gs, ps)

/-- All electrodes referenced by the export. -/
def allElectrodes (b : MBoard) : List MElectrode :=
  b.grids.flatMap (fun g => g.electrodes.map Prod.snd) ++
    b.peripherals.flatMap (fun p => p.electrodes.map Prod.snd)

theorem fillPins_isSome (tbl : List (String × ℕ))
    (ces : List ((ℕ × ℕ) × MElectrode)) (m : List (List (Option ℕ))) :
    (fillPins tbl m ces).isSome = true ↔
      ∀ ce ∈ ces, (pinLookup tbl (refdesKey ce.2.refdes)).isSome = true := by
  induction ces generalizing m with
  | nil => simp [fillPins]
  | cons ce rest ih =>
    rcases h : pinLookup tbl (refdesKey ce.2.refdes) with _ | pin
    · simp [fillPins, h]
    · simp only [fillPins, h, List.mem_cons]
      rw [ih]
      constructor
      · intro hall a ha
        rcases ha with rfl | ha
        · simp [h]
        · exact hall a ha
      · intro hall a ha
        exact hall a (Or.inr ha)

theorem optMap_isSome (f : α → Option β) (l : List α) :
    (optMap f l).isSome = true ↔ ∀ a ∈ l, (f a).isSome = true := by
  induction l with
  | nil => simp [optMap]
  | cons a t ih =>
    constructor
    · intro hs
      rcases h : f a with _ | b
      · simp only [optMap, h] at hs
        simp at hs
      · simp only [optMap, h] at hs
        rcases ht : optMap f t with _ | bs
        · rw [ht] at hs
          simp at hs
        · intro x hx
          rcases List.mem_cons.mp hx with rfl | hx
          · simp [h]
          · exact (ih.mp (by simp [ht])) x hx
    · intro hall
      have h1 : (f a).isSome = true := hall a (by simp)
      have h2 : (optMap f t).isSome = true :=
        ih.mpr (fun x hx => hall x (by simp [hx]))
      rcases h : f a with _ | b
      · rw [h] at h1
        simp at h1
      · rcases ht : optMap f t with _ | bs
        · rw [ht] at h2
          simp at h2
        · simp [optMap, h, ht]

/-- The one-grid board and net table of the C7 counterexample: a single
grid electrode with reference designator 0 whose net name `"badnet"` does
not match the pin pattern. -/
def c7Grid : MGrid := ⟨(0, 0), (1, 1), 1, [((0, 0), ⟨0, 0, (0, 0)⟩)]⟩

def c7Board : MBoard := ⟨[c7Grid], []⟩

def c7NetTable : List (String × String) := [("E0", "badnet")]

/-- **C7 (counterexample).** With a net table whose single entry fails the
pin pattern, the build loop does report the failure and omit the
electrode — but the subsequent layout export does NOT run to completion:
`create_grid_dict`'s unchecked `pin_table[f'E{refdes}']` raises `KeyError`
for the omitted electrode, so the export aborts (`none`). -/
theorem pin_mismatch_aborts_export :
    (buildPinTable c7NetTable).1 = [] ∧
    (buildPinTable c7NetTable).2 = ["badnet"] ∧
    exportLayout (buildPinTable c7NetTable).1 c7Board = none := by
  decide

/-- **C7 (amended).** The pin-table build loop alone is non-fatal: it
processes every net-table entry, reports each mismatching net name and
omits its electrode, and keeps every matching electrode with its pin, in
order.  The subsequent layout export, however, reads the pin table with
unchecked lookups and therefore completes exactly when every electrode of
the board (grid and peripheral alike) is present in the pin table; an
omitted electrode that belongs to the board aborts the export. -/
theorem pin_table_build_nonfatal_export_unchecked
    (entries : List (String × String)) (tbl : List (String × ℕ)) (b : MBoard) :
    buildPinTable entries =
      (entries.filterMap (fun e => (netPin e.2).map fun pin => (e.1, pin)),
       entries.filterMap (fun e => if (netPin e.2).isSome then none else some e.2)) ∧
    ((exportLayout tbl b).isSome = true ↔
      ∀ e ∈ allElectrodes b, (pinLookup tbl (refdesKey e.refdes)).isSome = true) := by
  constructor
  · induction entries with
    | nil => rfl
    | cons e rest ih =>
      rcases e with ⟨refdes, net⟩
      rcases h : netPin net with _ | pin <;>
        simp [buildPinTable, h, ih, List.filterMap_cons]
  · unfold exportLayout allElectrodes
    constructor
    · intro hs
      rcases hg : optMap (createGridPins tbl) b.grids with _ | gs
      · rw [hg] at hs
        simp at hs
      · rcases hp : optMap (createPeriphPins tbl) b.peripherals with _ | ps
        · rw [hg, hp] at hs
          simp at hs
        · intro e he
          rcases List.mem_append.mp he with he | he
          · obtain ⟨g, hgmem, hein⟩ := List.mem_flatMap.mp he
            obtain ⟨ce, hce, rfl⟩ := List.mem_map.mp hein
            have hgall := (optMap_isSome (createGridPins tbl) b.grids).mp (by simp [hg])
            have h2 := hgall g hgmem
            rw [createGridPins, fillPins_isSome] at h2
            exact h2 ce hce
          · obtain ⟨p, hpmem, hein⟩ := List.mem_flatMap.mp he
            obtain ⟨ne, hne, rfl⟩ := List.mem_map.mp hein
            have hpall := (optMap_isSome (createPeriphPins tbl) b.peripherals).mp
              (by simp [hp])
            have h2 := hpall p hpmem
            rw [createPeriphPins, optMap_isSome] at h2
            exact h2 ne hne
    · intro hall
      have hg : (optMap (createGridPins tbl) b.grids).isSome = true := by
        rw [optMap_isSome]
        intro g hgmem
        rw [createGridPins, fillPins_isSome]
        intro ce hce
        exact hall ce.2 (List.mem_append.mpr (Or.inl
          (List.mem_flatMap.mpr ⟨g, hgmem, List.mem_map_of_mem _ hce⟩)))
      have hp : (optMap (createPeriphPins tbl) b.peripherals).isSome = true := by
        rw [optMap_isSome]
        intro p hpmem
        rw [createPeriphPins, optMap_isSome]
        intro ne hne
        exact hall ne.2 (List.mem_append.mpr (Or.inr
          (List.mem_flatMap.mpr ⟨p, hpmem, List.mem_map_of_mem _ hne⟩)))
      rcases hg2 : optMap (createGridPins tbl) b.grids with _ | gs
      · rw [hg2] at hg
        simp at hg
      · rcases hp2 : optMap (createPeriphPins tbl) b.peripherals with _ | ps
        · rw [hp2] at hp
          simp at hp
        · simp [hg2, hp2]

/-- Witness for C7 (amended): a matching net table over the same one-grid
board makes the export complete. -/
theorem pin_table_build_nonfatal_export_unchecked_witness :
    (exportLayout [("E0", 3)] c7Board).isSome = true :=
  ((pin_table_build_nonfatal_export_unchecked [] [("E0", 3)] c7Board).2).mpr
    (by decide)

/-! ## The compact JSON encoder (src lines 145-181)

`CompactJSONEncoder.encode` renders lists and tuples on one line exactly
when `_is_single_line_list` holds (no container element, at most two
elements, `len(str(o)) - 2 <= 60`) and renders every other list and every
dict multi-line, one indentation space per nesting level.

A value is a container (list/tuple become `jlist`, dict becomes `jdict`)
or a scalar.  The encoder treats scalars opaquely through the `json`
library, so a scalar carries its `json.dumps` rendering (`dump`) and its
`repr` rendering (`srepr`, the form `str(o)` uses for elements); a dict
entry carries the `json.dumps` of its key. -/

mutual

inductive JVal where
  | scalar (dump : String) (srepr : String) : JVal
  | jlist (l : JArr) : JVal
  | jdict (d : JObj) : JVal

inductive JArr where
  | nil : JArr
  | cons (v : JVal) (rest : JArr) : JArr

inductive JObj where
  | nil : JObj
  | cons (kdump : String) (v : JVal) (rest : JObj) : JObj

end

def JArr.toList : JArr → List JVal
  | .nil => []
  | .cons v rest => v :: rest.toList

def JVal.isContainer : JVal → Bool
  | .scalar _ _ => false
  | .jlist _ => true
  | .jdict _ => true

/-- `sep.join(parts)`. -/
def joinSep (sep : String) : List String → String
  | [] => ""
  | [s] => s
  | s :: rest => s ++ sep ++ joinSep sep rest

mutual

/-- Compact `json.dumps` of a value (default separators `", "` / `": "`). -/
def dumps : JVal → String
  | .scalar d _ => d
  | .jlist l => "[" ++ joinSep ", " (dumpsArr l) ++ "]"
  | .jdict d => "\x7b" ++ joinSep ", " (dumpsObj d) ++ "\x7d"

def dumpsArr : JArr → List String
  | .nil => []
  | .cons v rest => dumps v :: dumpsArr rest

def dumpsObj : JObj → List String
  | .nil => []
  | .cons k v rest => (k ++ ": " ++ dumps v) :: dumpsObj rest

end

mutual

/-- Python's `str(o)`: elements rendered by `repr`.  Only its length is
used, and only when the list has no container element (the `and` in
`_is_single_line_list` short-circuits otherwise). -/
def pyRepr : JVal → String
  | .scalar _ r => r
  | .jlist l => "[" ++ joinSep ", " (pyReprArr l) ++ "]"
  | .jdict d => "\x7b" ++ joinSep ", " (pyReprObj d) ++ "\x7d"

def pyReprArr : JArr → List String
  | .nil => []
  | .cons v rest => pyRepr v :: pyReprArr rest

def pyReprObj : JObj → List String
  | .nil => []
  | .cons k v rest => (k ++ ": " ++ pyRepr v) :: pyReprObj rest

end

/-- `CompactJSONEncoder._is_single_line_list`: no nested list, tuple or
dict, at most 2 elements, and `len(str(o)) - 2 <= 60`. -/
def isSingleLineList (l : JArr) : Bool :=
  !(l.toList.any JVal.isContainer) && decide (l.toList.length ≤ 2) &&
    decide ((pyRepr (.jlist l)).length - 2 ≤ 60)

/-- `self.indent_str`: one space per indentation level. -/
def indentStr (lvl : ℕ) : String := String.mk (List.replicate lvl ' ')

mutual

/-- `CompactJSONEncoder.encode` at indentation level `lvl`. -/
def encode (lvl : ℕ) : JVal → String
  | .scalar d _ => d
  | .jlist l =>
    if isSingleLineList l then
      "[" ++ joinSep ", " (l.toList.map dumps) ++ "]"
    else
      "[\n" ++ joinSep ",\n" (encodeArr (lvl + 1) l) ++ "\n" ++ indentStr lvl ++ "]"
  | .jdict d =>
    "\x7b\n" ++ joinSep ",\n" (encodeObj (lvl + 1) d) ++ "\n" ++ indentStr lvl ++ "\x7d"

def encodeArr (lvl : ℕ) : JArr → List String
  | .nil => []
  | .cons v rest => (indentStr lvl ++ encode lvl v) :: encodeArr lvl rest

def encodeObj (lvl : ℕ) : JObj → List String
  | .nil => []
  | .cons k v rest => (indentStr lvl ++ k ++ ": " ++ encode lvl v) :: encodeObj lvl rest

end

/-- Whether a rendered string spans more than one line. -/
def hasNL (s : String) : Bool := s.data.any (· = '\n')

theorem hasNL_append (a b : String) :
    hasNL (a ++ b) = (hasNL a || hasNL b) := by
  simp [hasNL, String.data_append, List.any_append]

theorem hasNL_joinSep (sep : String) (parts : List String)
    (hsep : hasNL sep = false) (hp : ∀ s ∈ parts, hasNL s = false) :
    hasNL (joinSep sep parts) = false := by
  induction parts with
  | nil => rfl
  | cons s rest ih =>
    cases rest with
    | nil => exact hp s (by simp)
    | cons s2 r2 =>
      have hone : joinSep sep (s :: s2 :: r2) = s ++ sep ++ joinSep sep (s2 :: r2) := rfl
      rw [hone, hasNL_append, hasNL_append, hp s (by simp), hsep,
        ih (fun x hx => hp x (List.mem_cons_of_mem _ hx))]
      rfl

theorem scalar_dumps_noNL {els : List JVal}
    (hs : ∀ d r, JVal.scalar d r ∈ els → hasNL d = false)
    (hnc : els.any JVal.isContainer = false) :
    ∀ s ∈ els.map dumps, hasNL s = false := by
  intro s hmem
  obtain ⟨v, hv, rfl⟩ := List.mem_map.mp hmem
  cases v with
  | scalar d r => exact hs d r hv
  | jlist l2 =>
    rw [List.any_eq_false] at hnc
    exact absurd (hnc _ hv) (by simp [JVal.isContainer])
  | jdict d2 =>
    rw [List.any_eq_false] at hnc
    exact absurd (hnc _ hv) (by simp [JVal.isContainer])

/-- **C9.** The encoder renders a list on one line exactly when
`_is_single_line_list` accepts it (no nested list/tuple/dict, at most two
elements, short rendered length); every other list and every dict is
rendered multi-line, the elements indented one more level and the closing
bracket at the current level.  Hypothesis: `json.dumps` of a scalar never
contains a literal newline (the `json` library escapes them). -/
theorem encode_single_line_iff (lvl : ℕ) (l : JArr) (d : JObj)
    (hs : ∀ dm r, JVal.scalar dm r ∈ l.toList → hasNL dm = false) :
    (hasNL (encode lvl (.jlist l)) = false ↔ isSingleLineList l = true) ∧
    (isSingleLineList l = true →
      encode lvl (.jlist l) = "[" ++ joinSep ", " (l.toList.map dumps) ++ "]") ∧
    (isSingleLineList l = false →
      encode lvl (.jlist l) =
        "[\n" ++ joinSep ",\n" (encodeArr (lvl + 1) l) ++ "\n" ++ indentStr lvl ++ "]") ∧
    (hasNL (encode lvl (.jdict d)) = true ∧
      encode lvl (.jdict d) =
        "\x7b\n" ++ joinSep ",\n" (encodeObj (lvl + 1) d) ++ "\n" ++ indentStr lvl ++
          "\x7d") := by
  have hnlt : hasNL "\n" = true := by decide
  refine ⟨?_, ?_, ?_, ?_, rfl⟩
  · rcases hsl : isSingleLineList l with _ | _
    · have he : encode lvl (.jlist l) =
          "[\n" ++ joinSep ",\n" (encodeArr (lvl + 1) l) ++ "\n" ++ indentStr lvl ++ "]" := by
        simp [encode, hsl]
      rw [he, show ("[\n" : String) = "[" ++ "\n" from rfl, hasNL_append,
        hasNL_append, hasNL_append, hasNL_append, hnlt]
      simp
    · have he : encode lvl (.jlist l) =
          "[" ++ joinSep ", " (l.toList.map dumps) ++ "]" := by
        simp [encode, hsl]
      rw [he]
      have hnc : l.toList.any JVal.isContainer = false := by
        rcases h : l.toList.any JVal.isContainer with _ | _
        · rfl
        · rw [isSingleLineList, h] at hsl
          simp at hsl
      rw [hasNL_append, hasNL_append,
        hasNL_joinSep ", " (l.toList.map dumps) (by decide) (scalar_dumps_noNL hs hnc)]
      simp [show hasNL "[" = false from by decide, show hasNL "]" = false from by decide]
  · intro hsl
    simp [encode, hsl]
  · intro hsl
    simp [encode, hsl]
  · have he : encode lvl (.jdict d) =
        "\x7b\n" ++ joinSep ",\n" (encodeObj (lvl + 1) d) ++ "\n" ++ indentStr lvl ++
          "\x7d" := rfl
    rw [he, show ("\x7b\n" : String) = "\x7b" ++ "\n" from rfl, hasNL_append,
      hasNL_append, hasNL_append, hasNL_append, hnlt]
    simp

/-- Witness for C9 at a concrete scalar list and empty dict. -/
theorem encode_single_line_iff_witness :
    hasNL (encode 0 (.jlist (.cons (.scalar "1" "1") .nil))) = false ∧
    hasNL (encode 0 (.jdict .nil)) = true := by
  have h := encode_single_line_iff 0 (.cons (.scalar "1" "1") .nil) .nil
    (by intro dm r hmem; simp [JArr.toList] at hmem; rw [hmem.1]; decide)
  exact ⟨h.1.mpr (by decide), h.2.2.2.1⟩


/-! ## Deep copy of a board (`BoardDesign.copy`)

Modelled from the spec: "a full independent deep copy (no shared mutable
sub-objects between original and copy)".  Every electrode of the copy
gets a fresh store reference holding a copy of the polygon's current
contents; nothing below the old allocation bound is written. -/

/-- Deep copy of one electrode: fresh reference, contents copied. -/
def copyElectrode (w : World) (e : MElectrode) : World × MElectrode :=
  (⟨wwrite w.store w.next (w.store e.ref), w.next + 1, w.nextRefdes, w.nextPid⟩,
   ⟨e.refdes, w.next, e.origin⟩)

/-- Deep copy of a keyed electrode list (grid cells or peripheral names). -/
def copyEList (w : World) : List (κ × MElectrode) → World × List (κ × MElectrode)
  | [] => (w, [])
  | (k, e) :: rest =>
    let we := copyElectrode w e
    let wr := copyEList we.1 rest
    (wr.1, (k, we.2) :: wr.2)

def copyGrid (w : World) (g : MGrid) : World × MGrid :=
  let r := copyEList w g.electrodes
  (r.1, { g with electrodes := r.2 })

def copyGrids (w : World) : List MGrid → World × List MGrid
  | [] => (w, [])
  | g :: rest =>
    let r := copyGrid w g
    let rr := copyGrids r.1 rest
    (rr.1, r.2 :: rr.2)

def copyPeriph (w : World) (p : MPeriph) : World × MPeriph :=
  let r := copyEList w p.electrodes
  (r.1, { p with electrodes := r.2 })

def copyPeriphs (w : World) : List MPeriph → World × List MPeriph
  | [] => (w, [])
  | p :: rest =>
    let r := copyPeriph w p
    let rr := copyPeriphs r.1 rest
    (rr.1, r.2 :: rr.2)

/-- `BoardDesign.copy`: deep copy of all grids then all peripherals. -/
def copyBoard (w : World) (b : MBoard) : World × MBoard :=
  let rg := copyGrids w b.grids
  let rp := copyPeriphs rg.1 b.peripherals
  (rp.1, ⟨rg.2, rp.2⟩)

theorem copyEList_cons (w : World) (k : κ) (e : MElectrode)
    (rest : List (κ × MElectrode)) :
    copyEList w ((k, e) :: rest) =
      ((copyEList (copyElectrode w e).1 rest).1,
       (k, (copyElectrode w e).2) :: (copyEList (copyElectrode w e).1 rest).2) := rfl

theorem copyElectrode_next (w : World) (e : MElectrode) :
    (copyElectrode w e).1.next = w.next + 1 := rfl

theorem copyElectrode_store (w : World) (e : MElectrode) (r : ℕ) (hr : r < w.next) :
    (copyElectrode w e).1.store r = w.store r := by
  show wwrite w.store w.next (w.store e.ref) r = w.store r
  rw [wwrite, if_neg (by omega)]

theorem copyEList_store_lt (l : List (κ × MElectrode)) (w : World) (r : ℕ)
    (hr : r < w.next) : (copyEList w l).1.store r = w.store r := by
  induction l generalizing w with
  | nil => rfl
  | cons ke rest ih =>
    rcases ke with ⟨k, e⟩
    rw [copyEList_cons]
    have h2 : r < (copyElectrode w e).1.next := by
      rw [copyElectrode_next]
      omega
    rw [show ((copyEList (copyElectrode w e).1 rest).1,
        (k, (copyElectrode w e).2) :: (copyEList (copyElectrode w e).1 rest).2).1 =
        (copyEList (copyElectrode w e).1 rest).1 from rfl]
    rw [ih _ h2]
    exact copyElectrode_store w e r hr

theorem copyEList_next_le (l : List (κ × MElectrode)) (w : World) :
    w.next ≤ (copyEList w l).1.next := by
  induction l generalizing w with
  | nil => exact le_refl _
  | cons ke rest ih =>
    rcases ke with ⟨k, e⟩
    rw [copyEList_cons]
    refine le_trans ?_ (ih (copyElectrode w e).1)
    rw [copyElectrode_next]
    omega

theorem copyEList_fresh (l : List (κ × MElectrode)) (w : World) :
    ∀ ke ∈ (copyEList w l).2, w.next ≤ ke.2.ref := by
  induction l generalizing w with
  | nil => simp [copyEList]
  | cons ke0 rest ih =>
    rcases ke0 with ⟨k, e⟩
    intro ke hke
    rw [copyEList_cons] at hke
    rcases List.mem_cons.mp hke with rfl | hke
    · exact le_refl _
    · refine le_trans ?_ (ih (copyElectrode w e).1 ke hke)
      rw [copyElectrode_next]
      omega

theorem copyGrid_fst (w : World) (g : MGrid) :
    (copyGrid w g).1 = (copyEList w g.electrodes).1 := rfl

theorem copyGrid_refs (w : World) (g : MGrid) :
    (copyGrid w g).2.refs = (copyEList w g.electrodes).2.map (fun ke => ke.2.ref) := rfl

theorem copyGrids_cons (w : World) (g : MGrid) (rest : List MGrid) :
    copyGrids w (g :: rest) =
      ((copyGrids (copyGrid w g).1 rest).1,
       (copyGrid w g).2 :: (copyGrids (copyGrid w g).1 rest).2) := rfl

theorem copyGrids_store_lt (gs : List MGrid) (w : World) (r : ℕ)
    (hr : r < w.next) : (copyGrids w gs).1.store r = w.store r := by
  induction gs generalizing w with
  | nil => rfl
  | cons g rest ih =>
    rw [copyGrids_cons]
    rw [show ((copyGrids (copyGrid w g).1 rest).1,
        (copyGrid w g).2 :: (copyGrids (copyGrid w g).1 rest).2).1 =
        (copyGrids (copyGrid w g).1 rest).1 from rfl]
    have hle : w.next ≤ (copyGrid w g).1.next := by
      rw [copyGrid_fst]
      exact copyEList_next_le g.electrodes w
    rw [ih _ (lt_of_lt_of_le hr hle), copyGrid_fst]
    exact copyEList_store_lt g.electrodes w r hr

theorem copyGrids_next_le (gs : List MGrid) (w : World) :
    w.next ≤ (copyGrids w gs).1.next := by
  induction gs generalizing w with
  | nil => exact le_refl _
  | cons g rest ih =>
    rw [copyGrids_cons]
    refine le_trans ?_ (ih (copyGrid w g).1)
    rw [copyGrid_fst]
    exact copyEList_next_le g.electrodes w

theorem copyGrids_fresh (gs : List MGrid) (w : World) :
    ∀ g2 ∈ (copyGrids w gs).2, ∀ r ∈ g2.refs, w.next ≤ r := by
  induction gs generalizing w with
  | nil => simp [copyGrids]
  | cons g rest ih =>
    intro g2 hg2 r hr
    rw [copyGrids_cons] at hg2
    rcases List.mem_cons.mp hg2 with rfl | hg2
    · rw [copyGrid_refs] at hr
      obtain ⟨ke, hke, rfl⟩ := List.mem_map.mp hr
      exact copyEList_fresh g.electrodes w ke hke
    · refine le_trans ?_ (ih (copyGrid w g).1 g2 hg2 r hr)
      rw [copyGrid_fst]
      exact copyEList_next_le g.electrodes w

theorem copyPeriph_fst (w : World) (p : MPeriph) :
    (copyPeriph w p).1 = (copyEList w p.electrodes).1 := rfl

theorem copyPeriph_refs (w : World) (p : MPeriph) :
    (copyPeriph w p).2.refs = (copyEList w p.electrodes).2.map (fun ke => ke.2.ref) := rfl

theorem copyPeriphs_cons (w : World) (p : MPeriph) (rest : List MPeriph) :
    copyPeriphs w (p :: rest) =
      ((copyPeriphs (copyPeriph w p).1 rest).1,
       (copyPeriph w p).2 :: (copyPeriphs (copyPeriph w p).1 rest).2) := rfl

theorem copyPeriphs_store_lt (ps : List MPeriph) (w : World) (r : ℕ)
    (hr : r < w.next) : (copyPeriphs w ps).1.store r = w.store r := by
  induction ps generalizing w with
  | nil => rfl
  | cons p rest ih =>
    rw [copyPeriphs_cons]
    rw [show ((copyPeriphs (copyPeriph w p).1 rest).1,
        (copyPeriph w p).2 :: (copyPeriphs (copyPeriph w p).1 rest).2).1 =
        (copyPeriphs (copyPeriph w p).1 rest).1 from rfl]
    have hle : w.next ≤ (copyPeriph w p).1.next := by
      rw [copyPeriph_fst]
      exact copyEList_next_le p.electrodes w
    rw [ih _ (lt_of_lt_of_le hr hle), copyPeriph_fst]
    exact copyEList_store_lt p.electrodes w r hr

theorem copyPeriphs_next_le (ps : List MPeriph) (w : World) :
    w.next ≤ (copyPeriphs w ps).1.next := by
  induction ps generalizing w with
  | nil => exact le_refl _
  | cons p rest ih =>
    rw [copyPeriphs_cons]
    refine le_trans ?_ (ih (copyPeriph w p).1)
    rw [copyPeriph_fst]
    exact copyEList_next_le p.electrodes w

theorem copyPeriphs_fresh (ps : List MPeriph) (w : World) :
    ∀ p2 ∈ (copyPeriphs w ps).2, ∀ r ∈ p2.refs, w.next ≤ r := by
  induction ps generalizing w with
  | nil => simp [copyPeriphs]
  | cons p rest ih =>
    intro p2 hp2 r hr
    rw [copyPeriphs_cons] at hp2
    rcases List.mem_cons.mp hp2 with rfl | hp2
    · rw [copyPeriph_refs] at hr
      obtain ⟨ke, hke, rfl⟩ := List.mem_map.mp hr
      exact copyEList_fresh p.electrodes w ke hke
    · refine le_trans ?_ (ih (copyPeriph w p).1 p2 hp2 r hr)
      rw [copyPeriph_fst]
      exact copyEList_next_le p.electrodes w

theorem copyBoard_fst (w : World) (b : MBoard) :
    (copyBoard w b).1 = (copyPeriphs (copyGrids w b.grids).1 b.peripherals).1 := rfl

theorem copyBoard_snd (w : World) (b : MBoard) :
    (copyBoard w b).2 =
      ⟨(copyGrids w b.grids).2, (copyPeriphs (copyGrids w b.grids).1 b.peripherals).2⟩ :=
  rfl

theorem copyBoard_store_lt (b : MBoard) (w : World) (r : ℕ) (hr : r < w.next) :
    (copyBoard w b).1.store r = w.store r := by
  rw [copyBoard_fst]
  rw [copyPeriphs_store_lt b.peripherals _ r
    (lt_of_lt_of_le hr (copyGrids_next_le b.grids w))]
  exact copyGrids_store_lt b.grids w r hr

theorem copyBoard_next_le (b : MBoard) (w : World) :
    w.next ≤ (copyBoard w b).1.next := by
  rw [copyBoard_fst]
  exact le_trans (copyGrids_next_le b.grids w) (copyPeriphs_next_le b.peripherals _)

theorem copyBoard_fresh (b : MBoard) (w : World) :
    ∀ r ∈ (copyBoard w b).2.refs, w.next ≤ r := by
  intro r hr
  rw [copyBoard_snd, MBoard.refs] at hr
  rcases List.mem_append.mp hr with hr | hr
  · obtain ⟨g2, hg2, hrg⟩ := List.mem_flatMap.mp hr
    exact copyGrids_fresh b.grids w g2 hg2 r hrg
  · obtain ⟨p2, hp2, hrp⟩ := List.mem_flatMap.mp hr
    exact le_trans (copyGrids_next_le b.grids w)
      (copyPeriphs_fresh b.peripherals _ p2 hp2 r hrp)


/-! ## Crenellation engine (`crenellate_grid` / `crenellate_electrodes`)

Modelled from the spec (section 4.3): locate the colinear equal-length
facing segment shared by the two polygons; a shared boundary shorter than
`2·margin` or a non-positive tooth count leaves both edges straight
(a no-op); otherwise the interlocking tooth profile replaces the two
polygons.  The spec leaves the exact tooth formula open (section 9,
"the exact finger-shape construction ... is not fully specified"), so the
tooth-splicing function is a parameter of the model. -/

/-- Squared euclidean length of a segment. -/
def lenSq (a b : Pt) : ℚ := (b.1 - a.1) ^ 2 + (b.2 - a.2) ^ 2

/-- The directed edges of a closed polygon. -/
def edges (p : Poly) : List (Pt × Pt) :=
  match p with
  | [] => []
  | q :: _ => p.zip (p.tail ++ [q])

/-- The first edge of `pa` that appears reversed among the edges of `pb`:
the shared facing segment of two adjacent electrodes. -/
def findShared (pa pb : Poly) : Option (Pt × Pt) :=
  (edges pa).findSome? fun ea =>
    (edges pb).findSome? fun eb =>
      if ea.1 = eb.2 ∧ ea.2 = eb.1 then some ea else none

/-- `crenellate_electrodes` on the two boundary polygons: guard, then
tooth splice. -/
def crenPolys (splice : Poly → Poly → Poly × Poly) (nd : ℤ) (margin : ℚ)
    (pa pb : Poly) : Poly × Poly :=
  match findShared pa pb with
  | none => (pa, pb)
  | some e =>
    if lenSq e.1 e.2 < (2 * margin) ^ 2 ∨ nd ≤ 0 then (pa, pb)
    else splice pa pb

/-- `crenellate_electrodes` as an in-place mutation: reads both boundary
polygons from the store and writes the crenellated pair back. -/
def crenPair (splice : Poly → Poly → Poly × Poly) (nd : ℤ) (margin : ℚ)
    (w : World) (ea eb : MElectrode) : World :=
  let r := crenPolys splice nd margin (w.store ea.ref) (w.store eb.ref)
  ⟨wwrite (wwrite w.store ea.ref r.1) eb.ref r.2, w.next, w.nextRefdes, w.nextPid⟩

/-- Cell lookup in a grid (`grid.electrodes[(col, row)]`). -/
def gridLookup (g : MGrid) (cell : ℕ × ℕ) : Option MElectrode :=
  (g.electrodes.find? (fun ce => ce.1 == cell)).map Prod.snd

/-- The occupied adjacent cell pairs of a grid: every occupied cell with
its occupied right and down neighbours. -/
def adjacentPairs (g : MGrid) : List (MElectrode × MElectrode) :=
  g.electrodes.flatMap fun ce =>
    ((gridLookup g (ce.1.1 + 1, ce.1.2)).toList.map fun e2 => (ce.2, e2)) ++
    ((gridLookup g (ce.1.1, ce.1.2 + 1)).toList.map fun e2 => (ce.2, e2))

/-- `crenellate_grid`: crenellate every occupied adjacent pair in place. -/
def crenGrid (splice : Poly → Poly → Poly × Poly) (nd : ℤ) (margin : ℚ)
    (w : World) (g : MGrid) : World :=
  (adjacentPairs g).foldl (fun w2 pr => crenPair splice nd margin w2 pr.1 pr.2) w

/-- A sequence of explicit `crenellate_electrodes` calls. -/
def crenPairsFold (splice : Poly → Poly → Poly × Poly) (nd : ℤ) (margin : ℚ)
    (w : World) (pairs : List (MElectrode × MElectrode)) : World :=
  pairs.foldl (fun w2 pr => crenPair splice nd margin w2 pr.1 pr.2) w

/-- The crenellation phase of the script: `crenellate_grid` on every grid
of the (copied) board, then the explicit grid-to-reservoir
`crenellate_electrodes` calls. -/
def crenellateBoard (splice : Poly → Poly → Poly × Poly) (nd : ℤ) (margin : ℚ)
    (w : World) (b : MBoard) (pairs : List (MElectrode × MElectrode)) : World :=
  crenPairsFold splice nd margin
    (b.grids.foldl (fun w2 g => crenGrid splice nd margin w2 g) w) pairs

theorem crenPair_frame (splice : Poly → Poly → Poly × Poly) (nd : ℤ) (margin : ℚ)
    (w : World) (ea eb : MElectrode) (r : ℕ)
    (h1 : r ≠ ea.ref) (h2 : r ≠ eb.ref) :
    (crenPair splice nd margin w ea eb).store r = w.store r := by
  show wwrite (wwrite w.store ea.ref _) eb.ref _ r = w.store r
  rw [wwrite, if_neg h2, wwrite, if_neg h1]

theorem crenPairsFold_frame (splice : Poly → Poly → Poly × Poly) (nd : ℤ)
    (margin : ℚ) (pairs : List (MElectrode × MElectrode)) (w : World) (r : ℕ)
    (h : ∀ pr ∈ pairs, r ≠ pr.1.ref ∧ r ≠ pr.2.ref) :
    (crenPairsFold splice nd margin w pairs).store r = w.store r := by
  induction pairs generalizing w with
  | nil => rfl
  | cons pr rest ih =>
    have hpr := h pr (by simp)
    rw [show crenPairsFold splice nd margin w (pr :: rest) =
      crenPairsFold splice nd margin (crenPair splice nd margin w pr.1 pr.2) rest from rfl]
    rw [ih _ (fun q hq => h q (List.mem_cons_of_mem _ hq))]
    exact crenPair_frame splice nd margin w pr.1 pr.2 r hpr.1 hpr.2

theorem gridLookup_ref_mem {g : MGrid} {cell : ℕ × ℕ} {e : MElectrode}
    (h : gridLookup g cell = some e) : e.ref ∈ g.refs := by
  rw [gridLookup] at h
  rcases hf : g.electrodes.find? (fun ce => ce.1 == cell) with _ | ce
  · rw [hf] at h
    cases h
  · rw [hf] at h
    rw [show (some ce).map Prod.snd = some ce.2 from rfl] at h
    cases h
    exact List.mem_map_of_mem _ (List.mem_of_find?_eq_some hf)

theorem adjacentPairs_refs (g : MGrid) :
    ∀ pr ∈ adjacentPairs g, pr.1.ref ∈ g.refs ∧ pr.2.ref ∈ g.refs := by
  intro pr hpr
  rw [adjacentPairs] at hpr
  obtain ⟨ce, hce, hmem⟩ := List.mem_flatMap.mp hpr
  have hce1 : ce.2.ref ∈ g.refs := List.mem_map_of_mem _ hce
  rcases List.mem_append.mp hmem with hm | hm
  · obtain ⟨e2, he2, heq⟩ := List.mem_map.mp hm
    rcases hl : gridLookup g (ce.1.1 + 1, ce.1.2) with _ | e3
    · rw [hl] at he2
      simp [Option.toList] at he2
    · rw [hl] at he2
      simp [Option.toList] at he2
      subst he2
      rw [← heq]
      exact ⟨hce1, gridLookup_ref_mem hl⟩
  · obtain ⟨e2, he2, heq⟩ := List.mem_map.mp hm
    rcases hl : gridLookup g (ce.1.1, ce.1.2 + 1) with _ | e3
    · rw [hl] at he2
      simp [Option.toList] at he2
    · rw [hl] at he2
      simp [Option.toList] at he2
      subst he2
      rw [← heq]
      exact ⟨hce1, gridLookup_ref_mem hl⟩

theorem crenGrid_frame (splice : Poly → Poly → Poly × Poly) (nd : ℤ) (margin : ℚ)
    (w : World) (g : MGrid) (r : ℕ) (h : r ∉ g.refs) :
    (crenGrid splice nd margin w g).store r = w.store r := by
  rw [show crenGrid splice nd margin w g =
    crenPairsFold splice nd margin w (adjacentPairs g) from rfl]
  refine crenPairsFold_frame splice nd margin _ w r (fun pr hpr => ?_)
  have := adjacentPairs_refs g pr hpr
  exact ⟨fun he => h (he ▸ this.1), fun he => h (he ▸ this.2)⟩

theorem crenGrids_frame (splice : Poly → Poly → Poly × Poly) (nd : ℤ) (margin : ℚ)
    (gs : List MGrid) (w : World) (r : ℕ) (h : ∀ g ∈ gs, r ∉ g.refs) :
    (gs.foldl (fun w2 g => crenGrid splice nd margin w2 g) w).store r = w.store r := by
  induction gs generalizing w with
  | nil => rfl
  | cons g rest ih =>
    rw [List.foldl_cons]
    rw [ih _ (fun g2 hg2 => h g2 (List.mem_cons_of_mem _ hg2))]
    exact crenGrid_frame splice nd margin w g r (h g (by simp))

/-- **C2.** Deep-copying a board and crenellating only the copy (the
grid-adjacency pass over every grid of the copy plus any explicit
`crenellate_electrodes` calls on electrodes of the copy) leaves every
boundary polygon of the original board pointwise unchanged, and original
and copy share no polygon references (no shared mutable sub-objects). -/
theorem copy_then_crenellate_frame (w : World) (b : MBoard)
    (splice : Poly → Poly → Poly × Poly) (nd : ℤ) (margin : ℚ)
    (pairs : List (MElectrode × MElectrode))
    (hwf : ∀ r ∈ b.refs, r < w.next)
    (hpairs : ∀ pr ∈ pairs, pr.1.ref ∈ (copyBoard w b).2.refs ∧
      pr.2.ref ∈ (copyBoard w b).2.refs) :
    (∀ r ∈ b.refs,
      (crenellateBoard splice nd margin (copyBoard w b).1 (copyBoard w b).2 pairs).store r
        = w.store r) ∧
    (∀ r ∈ b.refs, r ∉ (copyBoard w b).2.refs) := by
  have hdisj : ∀ r ∈ b.refs, r ∉ (copyBoard w b).2.refs := fun r hr hmem =>
    absurd (copyBoard_fresh b w r hmem) (Nat.not_le.mpr (hwf r hr))
  refine ⟨?_, hdisj⟩
  intro r hr
  rw [crenellateBoard]
  have hpr2 : ∀ pr ∈ pairs, r ≠ pr.1.ref ∧ r ≠ pr.2.ref := by
    intro pr hpr
    have h2 := hpairs pr hpr
    exact ⟨fun he => hdisj r hr (by rw [he]; exact h2.1),
           fun he => hdisj r hr (by rw [he]; exact h2.2)⟩
  rw [crenPairsFold_frame splice nd margin pairs _ r hpr2]
  have hgg : ∀ g ∈ (copyBoard w b).2.grids, r ∉ g.refs := by
    intro g hgmem hmem
    refine hdisj r hr ?_
    rw [MBoard.refs]
    exact List.mem_append.mpr (Or.inl (List.mem_flatMap.mpr ⟨g, hgmem, hmem⟩))
  rw [crenGrids_frame splice nd margin _ _ r hgg]
  exact copyBoard_store_lt b w r (hwf r hr)

/-- The one-grid, one-electrode board of the C2 witness. -/
def c2Board : MBoard := ⟨[⟨(0, 0), (1, 1), 1, [((0, 0), ⟨0, 0, (0, 0)⟩)]⟩], []⟩

/-- The world owning that board: one allocated polygon. -/
def c2World : World := ⟨fun _ => [(0, 0), (1, 0), (1, 1), (0, 1)], 1, 1, 0⟩

/-- Witness for C2 at a concrete one-electrode board. -/
theorem copy_then_crenellate_frame_witness :
    (crenellateBoard (fun a b => (a, b)) 5 (3 / 20) (copyBoard c2World c2Board).1
      (copyBoard c2World c2Board).2 []).store 0 = c2World.store 0 :=
  (copy_then_crenellate_frame c2World c2Board (fun a b => (a, b)) 5 (3 / 20) []
    (by decide) (by simp)).1 0 (by decide)

/-- **C6.** Crenellation in a degenerate configuration is a no-op rather
than a failure: whatever the tooth-splicing formula, if the shared facing
segment is shorter than `2·margin` (compared through squared lengths) or
the tooth count is non-positive — or no shared segment exists at all —
both boundary polygons are returned unchanged, and the in-place update
writes the stored polygons back unmodified. -/
theorem crenellation_short_or_invalid_noop
    (splice : Poly → Poly → Poly × Poly) (nd : ℤ) (margin : ℚ) (pa pb : Poly) :
    (∀ e, findShared pa pb = some e →
      (lenSq e.1 e.2 < (2 * margin) ^ 2 ∨ nd ≤ 0) →
      crenPolys splice nd margin pa pb = (pa, pb)) ∧
    (findShared pa pb = none → crenPolys splice nd margin pa pb = (pa, pb)) ∧
    (∀ (w : World) (ea eb : MElectrode),
      crenPolys splice nd margin (w.store ea.ref) (w.store eb.ref) =
        (w.store ea.ref, w.store eb.ref) →
      ∀ r, (crenPair splice nd margin w ea eb).store r = w.store r) := by
  refine ⟨?_, ?_, ?_⟩
  · intro e he hguard
    rw [crenPolys]
    rw [he]
    exact if_pos hguard
  · intro he
    rw [crenPolys, he]
  · intro w ea eb hid r
    show wwrite (wwrite w.store ea.ref
      (crenPolys splice nd margin (w.store ea.ref) (w.store eb.ref)).1) eb.ref
      (crenPolys splice nd margin (w.store ea.ref) (w.store eb.ref)).2 r = w.store r
    rw [hid]
    by_cases hb : r = eb.ref
    · subst hb
      rw [wwrite, if_pos rfl]
    · rw [wwrite, if_neg hb]
      by_cases ha : r = ea.ref
      · subst ha
        rw [wwrite, if_pos rfl]
      · rw [wwrite, if_neg ha]

/-- Left unit square. -/
def sqA : Poly := [(0, 0), (1, 0), (1, 1), (0, 1)]

/-- Right unit square, sharing the edge from (1,0) to (1,1) with `sqA`. -/
def sqB : Poly := [(1, 0), (2, 0), (2, 1), (1, 1)]

/-- Witness for C6: two adjacent unit squares whose shared edge (length 1)
is shorter than `2·margin` for `margin = 1`; any splice leaves them
unchanged. -/
theorem crenellation_short_or_invalid_noop_witness :
    crenPolys (fun _ _ => ([], [])) 0 1 sqA sqB = (sqA, sqB) :=
  (crenellation_short_or_invalid_noop (fun _ _ => ([], [])) 0 1 sqA sqB).1
    ((1, 0), (1, 1)) (by decide) (Or.inr (by decide))


/-! ## Board reducer (`reduce_board_to_electrodes`)

Modelled from the spec: a flat, order-stable sequence — first every grid
in insertion order with its cells in lattice row-major order, then every
peripheral in insertion order with its electrodes in template order —
each electrode carrying pre-computed global-frame points (grid: origin
plus cell·pitch, no rotation; peripheral: rotated then translated).  The
reducer only reads; it returns the world unchanged. -/

structure FlatE where
  refdes : ℕ
  points : Poly
  deriving DecidableEq

/-- One lattice row of cells: `(0, r) … (wd-1, r)`. -/
def rowCells (wd r : ℕ) : List (ℕ × ℕ) := (List.range wd).map fun c => (c, r)

/-- `hh` lattice rows starting at row `r0`, row-major. -/
def rowsFrom (wd : ℕ) : ℕ → ℕ → List (ℕ × ℕ)
  | _, 0 => []
  | r0, hh + 1 => rowCells wd r0 ++ rowsFrom wd (r0 + 1) hh

/-- Row-major enumeration of all cells of a `size = (width, height)`
grid. -/
def rowMajorCells (size : ℕ × ℕ) : List (ℕ × ℕ) := rowsFrom size.1 0 size.2

/-- The grid part of the reducer: occupied cells in row-major order, each
with its global points `transform(points, grid origin + cell·pitch, 0)`. -/
def gridFlat (w : World) (g : MGrid) : List FlatE :=
  (rowMajorCells g.size).filterMap fun cell =>
    (gridLookup g cell).map fun e =>
      ⟨e.refdes, transform (w.store e.ref) (ptAdd g.origin (cellOrigin g.pitch cell)) rot0⟩

/-- The peripheral part: template-order electrodes, each with global
points `transform(points, peripheral origin, peripheral rotation)`. -/
def periphFlat (w : World) (p : MPeriph) : List FlatE :=
  p.electrodes.map fun ne => ⟨ne.2.refdes, transform (w.store ne.2.ref) p.origin p.rot⟩

/-- `reduce_board_to_electrodes`, with the world threaded through to state
that the call does not mutate it. -/
def reduceBoard (w : World) (b : MBoard) : List FlatE × World :=
  (b.grids.flatMap (gridFlat w) ++ b.peripherals.flatMap (periphFlat w), w)

theorem rowCells_get (wd r c : ℕ) (hc : c < wd) :
    (rowCells wd r)[c]? = some (c, r) := by
  rw [rowCells]
  simp [List.getElem?_range, hc]

theorem rowCells_length (wd r : ℕ) : (rowCells wd r).length = wd := by
  simp [rowCells]

theorem rowsFrom_get (wd hh r0 c r : ℕ) (hc : c < wd)
    (h1 : r0 ≤ r) (h2 : r < r0 + hh) :
    (rowsFrom wd r0 hh)[(r - r0) * wd + c]? = some (c, r) := by
  induction hh generalizing r0 with
  | zero => omega
  | succ n ih =>
    rw [rowsFrom]
    by_cases hr : r = r0
    · subst hr
      rw [Nat.sub_self, Nat.zero_mul, Nat.zero_add]
      rw [List.getElem?_append_left (by rw [rowCells_length]; exact hc)]
      exact rowCells_get wd r c hc
    · have h3 : r - r0 = (r - (r0 + 1)) + 1 := by omega
      have hge : (rowCells wd r0).length ≤ (r - r0) * wd + c := by
        rw [rowCells_length, h3, Nat.succ_mul]
        omega
      rw [List.getElem?_append_right hge, rowCells_length]
      have harith : (r - r0) * wd + c - wd = (r - (r0 + 1)) * wd + c := by
        rw [h3, Nat.succ_mul]
        omega
      rw [harith]
      exact ih (r0 + 1) (by omega) (by omega)

theorem rowMajor_index_lt (wd c1 r1 c2 r2 : ℕ) (hc1 : c1 < wd) (hc2 : c2 < wd) :
    (r1 * wd + c1 < r2 * wd + c2) ↔ (r1 < r2 ∨ (r1 = r2 ∧ c1 < c2)) := by
  constructor
  · intro h
    rcases Nat.lt_trichotomy r1 r2 with hr | hr | hr
    · exact Or.inl hr
    · subst hr
      exact Or.inr ⟨rfl, Nat.lt_of_add_lt_add_left h⟩
    · exfalso
      have hstep : r2 * wd + c2 < (r2 + 1) * wd := by
        rw [Nat.succ_mul]
        omega
      have hmul : (r2 + 1) * wd ≤ r1 * wd := Nat.mul_le_mul_right wd hr
      omega
  · intro h
    rcases h with hr | ⟨hr, hc⟩
    · have hstep : r1 * wd + c1 < (r1 + 1) * wd := by
        rw [Nat.succ_mul]
        omega
      have hmul : (r1 + 1) * wd ≤ r2 * wd := Nat.mul_le_mul_right wd hr
      omega
    · subst hr
      exact Nat.add_lt_add_left hc _

/-- **C3.** `reduce_board_to_electrodes` does not mutate its input, and
returns the flat deterministic sequence: all grids in insertion order
(cells in row-major lattice order: the cell `(c, r)` of a grid sits at
row-major index `r·width + c`, and indices compare exactly as the
row-major lexicographic order on `(row, col)`), then all peripherals in
insertion order (electrodes in template order), every element carrying
its pre-computed global-frame points. -/
theorem reduce_board_flat_ordered (w : World) (b : MBoard) :
    (reduceBoard w b).2 = w ∧
    (reduceBoard w b).1 =
      b.grids.flatMap (gridFlat w) ++ b.peripherals.flatMap (periphFlat w) ∧
    (∀ g : MGrid, ∀ c1 r1 c2 r2 : ℕ, c1 < g.size.1 → r1 < g.size.2 →
      c2 < g.size.1 → r2 < g.size.2 →
      ((rowMajorCells g.size)[r1 * g.size.1 + c1]? = some (c1, r1) ∧
       (r1 * g.size.1 + c1 < r2 * g.size.1 + c2 ↔
         (r1 < r2 ∨ (r1 = r2 ∧ c1 < c2))))) ∧
    (∀ g : MGrid, ∀ fe ∈ gridFlat w g, ∃ cell e, gridLookup g cell = some e ∧
      cell ∈ rowMajorCells g.size ∧
      fe = ⟨e.refdes,
        transform (w.store e.ref) (ptAdd g.origin (cellOrigin g.pitch cell)) rot0⟩) ∧
    (∀ p : MPeriph, ∀ fe ∈ periphFlat w p, ∃ ne ∈ p.electrodes,
      fe = ⟨ne.2.refdes, transform (w.store ne.2.ref) p.origin p.rot⟩) := by
  refine ⟨rfl, rfl, ?_, ?_, ?_⟩
  · intro g c1 r1 c2 r2 hc1 hr1 hc2 hr2
    constructor
    · rw [rowMajorCells]
      have := rowsFrom_get g.size.1 g.size.2 0 c1 r1 hc1 (Nat.zero_le _) (by omega)
      rw [Nat.sub_zero] at this
      exact this
    · exact rowMajor_index_lt g.size.1 c1 r1 c2 r2 hc1 hc2
  · intro g fe hfe
    rw [gridFlat] at hfe
    obtain ⟨cell, hcell, heq⟩ := List.mem_filterMap.mp hfe
    rcases hl : gridLookup g cell with _ | e
    · rw [hl] at heq
      cases heq
    · rw [hl] at heq
      have heq2 : some (FlatE.mk e.refdes
          (transform (w.store e.ref) (ptAdd g.origin (cellOrigin g.pitch cell)) rot0)) =
          some fe := heq
      cases heq2
      exact ⟨cell, e, hl, hcell, rfl⟩
  · intro p fe hfe
    rw [periphFlat] at hfe
    obtain ⟨ne, hne, heq⟩ := List.mem_map.mp hfe
    exact ⟨ne, hne, heq.symm⟩

/-- The 2×2 grid used by the C3 witness. -/
def c3Grid : MGrid := ⟨(0, 0), (2, 2), 1, []⟩

/-- Witness for C3: no mutation on a concrete board, and the row-major
index facts at the concrete cells (1,0) and (0,1) of a 2×2 grid. -/
theorem reduce_board_flat_ordered_witness :
    (reduceBoard emptyWorld ⟨[c3Grid], []⟩).2 = emptyWorld ∧
    ((rowMajorCells c3Grid.size)[0 * c3Grid.size.1 + 1]? = some (1, 0) ∧
      (0 * c3Grid.size.1 + 1 < 1 * c3Grid.size.1 + 0 ↔
        (0 < 1 ∨ (0 = 1 ∧ 1 < 0)))) :=
  ⟨(reduce_board_flat_ordered emptyWorld ⟨[c3Grid], []⟩).1,
   (reduce_board_flat_ordered emptyWorld ⟨[c3Grid], []⟩).2.2.1 c3Grid 1 0 0 1
     (by decide) (by decide) (by decide) (by decide)⟩


/-! ## The construction pipeline and its determinism

The script's run is a sequence of operations — `fill_ascii`,
`add_peripheral`, `board.copy`, `crenellate_grid`,
`crenellate_electrodes` — acting on a state of one world and a list of
boards.  The operations are given as a small-step relation; determinism
of the whole pipeline (identical inputs give identical polygon sets and
reference-designator assignments) is proved about the relation. -/

/-- Instantiate the electrodes of a peripheral template (named local
polygons): each gets the next sequential reference designator and a fresh
store reference. -/
def instPeriphEs (w : World) : List (String × Poly) → World × List (String × MElectrode)
  | [] => (w, [])
  | np :: rest =>
    let w1 : World := ⟨wwrite w.store w.next np.2, w.next + 1, w.nextRefdes + 1, w.nextPid⟩
    let wr := instPeriphEs w1 rest
    (wr.1, (np.1, ⟨w.nextRefdes, w.next, (0, 0)⟩) :: wr.2)

/-- `Constructor.add_peripheral`: instantiate the template, assign the
fresh unique instance id, store origin and rotation, and append the
instance to the board's peripheral sequence. -/
def addPeripheral (w : World) (b : MBoard) (pclass ptype : String)
    (tmpl : List (String × Poly)) (origin rot : Pt) : World × MBoard :=
  let wr := instPeriphEs w tmpl
  (⟨wr.1.store, wr.1.next, wr.1.nextRefdes, w.nextPid + 1⟩,
   { b with peripherals := b.peripherals ++
      [⟨pclass, ptype, w.nextPid, origin, rot, wr.2⟩] })

/-- `peripheral.electrode(name)`. -/
def periphLookup (p : MPeriph) (name : String) : Option MElectrode :=
  (p.electrodes.find? (fun ne => ne.1 == name)).map Prod.snd

/-- Pipeline state: allocation world plus the boards built so far. -/
structure PState where
  w : World
  boards : List MBoard

/-- The pipeline operations of the script. -/
inductive BOp where
  | fillOp (bi gi : ℕ) (text : String)
  | addPeriphOp (bi : ℕ) (pclass ptype : String) (tmpl : List (String × Poly))
      (origin rot : Pt)
  | copyOp (bi : ℕ)
  | crenGridOp (bi gi : ℕ) (nd : ℤ) (margin : ℚ)
  | crenPairOp (bi gi : ℕ) (cell : ℕ × ℕ) (pidx : ℕ) (name : String) (nd : ℤ)
      (margin : ℚ)

/-- The effect of one pipeline operation (operations addressing a missing
board, grid, cell or peripheral leave the state unchanged). -/
def applyOp (splice : Poly → Poly → Poly × Poly) : BOp → PState → PState
  | .fillOp bi gi text, s =>
    match s.boards.get? bi with
    | none => s
    | some b =>
      match b.grids.get? gi with
      | none => s
      | some g =>
        ⟨(fillAscii s.w g text).1,
         s.boards.set bi { b with grids := b.grids.set gi (fillAscii s.w g text).2 }⟩
  | .addPeriphOp bi pclass ptype tmpl origin rot, s =>
    match s.boards.get? bi with
    | none => s
    | some b =>
      ⟨(addPeripheral s.w b pclass ptype tmpl origin rot).1,
       s.boards.set bi (addPeripheral s.w b pclass ptype tmpl origin rot).2⟩
  | .copyOp bi, s =>
    match s.boards.get? bi with
    | none => s
    | some b => ⟨(copyBoard s.w b).1, s.boards ++ [(copyBoard s.w b).2]⟩
  | .crenGridOp bi gi nd margin, s =>
    match s.boards.get? bi with
    | none => s
    | some b =>
      match b.grids.get? gi with
      | none => s
      | some g => ⟨crenGrid splice nd margin s.w g, s.boards⟩
  | .crenPairOp bi gi cell pidx name nd margin, s =>
    match s.boards.get? bi with
    | none => s
    | some b =>
      match b.grids.get? gi with
      | none => s
      | some g =>
        match gridLookup g cell with
        | none => s
        | some ea =>
          match b.peripherals.get? pidx with
          | none => s
          | some p =>
            match periphLookup p name with
            | none => s
            | some eb => ⟨crenPair splice nd margin s.w ea eb, s.boards⟩

/-- One pipeline step. -/
inductive Step (splice : Poly → Poly → Poly × Poly) : BOp → PState → PState → Prop
  | fillS (bi gi : ℕ) (text : String) (s : PState) :
      Step splice (.fillOp bi gi text) s (applyOp splice (.fillOp bi gi text) s)
  | addS (bi : ℕ) (pclass ptype : String) (tmpl : List (String × Poly))
      (origin rot : Pt) (s : PState) :
      Step splice (.addPeriphOp bi pclass ptype tmpl origin rot) s
        (applyOp splice (.addPeriphOp bi pclass ptype tmpl origin rot) s)
  | copyS (bi : ℕ) (s : PState) :
      Step splice (.copyOp bi) s (applyOp splice (.copyOp bi) s)
  | crenGridS (bi gi : ℕ) (nd : ℤ) (margin : ℚ) (s : PState) :
      Step splice (.crenGridOp bi gi nd margin) s
        (applyOp splice (.crenGridOp bi gi nd margin) s)
  | crenPairS (bi gi : ℕ) (cell : ℕ × ℕ) (pidx : ℕ) (name : String) (nd : ℤ)
      (margin : ℚ) (s : PState) :
      Step splice (.crenPairOp bi gi cell pidx name nd margin) s
        (applyOp splice (.crenPairOp bi gi cell pidx name nd margin) s)

/-- A run of the pipeline: the listed operations in order. -/
inductive Run (splice : Poly → Poly → Poly × Poly) :
    List BOp → PState → PState → Prop
  | nilR (s : PState) : Run splice [] s s
  | consR {op : BOp} {ops : List BOp} {s t u : PState} :
      Step splice op s t → Run splice ops t u → Run splice (op :: ops) s u

theorem step_deterministic (splice : Poly → Poly → Poly × Poly) (op : BOp)
    (s t1 t2 : PState) (h1 : Step splice op s t1) (h2 : Step splice op s t2) :
    t1 = t2 := by
  cases h1 <;> cases h2 <;> rfl

theorem run_deterministic (splice : Poly → Poly → Poly × Poly) (ops : List BOp)
    (s t1 t2 : PState) (h1 : Run splice ops s t1) (h2 : Run splice ops s t2) :
    t1 = t2 := by
  induction h1 generalizing t2 with
  | nilR s0 =>
    cases h2
    rfl
  | consR hstep hrun ih =>
    cases h2 with
    | consR hstep2 hrun2 =>
      cases step_deterministic _ _ _ _ _ hstep hstep2
      exact ih _ hrun2

/-- The reference designators of a board, in reducer order. -/
def boardRefdesList (b : MBoard) : List ℕ := (allElectrodes b).map MElectrode.refdes

/-- **C8.** The pipeline is deterministic: two runs of the same operation
list (same floor-plan texts, templates, placements and crenellation
parameters) from the same start state end in the same state, and in
particular produce identical flattened polygon sets and identical
reference-designator assignments. -/
theorem pipeline_deterministic (splice : Poly → Poly → Poly × Poly)
    (ops : List BOp) (s0 t1 t2 : PState)
    (h1 : Run splice ops s0 t1) (h2 : Run splice ops s0 t2) :
    t1 = t2 ∧
    t1.boards.map (fun b => (reduceBoard t1.w b).1) =
      t2.boards.map (fun b => (reduceBoard t2.w b).1) ∧
    t1.boards.map boardRefdesList = t2.boards.map boardRefdesList := by
  obtain rfl := run_deterministic splice ops s0 t1 t2 h1 h2
  exact ⟨rfl, rfl, rfl⟩

/-- The start state of the C8 witness: one empty one-cell grid. -/
def c8Start : PState := ⟨emptyWorld, [⟨[⟨(0, 0), (1, 1), 1, []⟩], []⟩]⟩

/-- Witness for C8: a concrete one-operation run, executed twice. -/
theorem pipeline_deterministic_witness :
    applyOp (fun a _ => (a, a)) (.fillOp 0 0 "X") c8Start =
      applyOp (fun a _ => (a, a)) (.fillOp 0 0 "X") c8Start :=
  (pipeline_deterministic (fun a _ => (a, a)) [.fillOp 0 0 "X"] c8Start _ _
    (Run.consR (Step.fillS 0 0 "X" c8Start) (Run.nilR _))
    (Run.consR (Step.fillS 0 0 "X" c8Start) (Run.nilR _))).1

end DMF
